import Mathlib

/-!
Formal model of the micro-transformer OpenMP encoder core
(src/matrix.cpp, src/attention.cpp, src/layers.cpp, src/encoder.cpp,
src/benchmark.cpp, src/include/transformer.h).

The C++ core works on single-precision floats; this development embeds the
same algorithms over exact rationals.  Exact arithmetic is the idealisation
under which the serial and the multi-threaded path of every block perform
the same mathematical computation, so "equivalent within tolerance" claims
are settled as exact equalities here.  The transcendental helpers `exp`
(used by softmax) and `sqrt` (used by layer normalization and by the
attention scale) are threaded through as explicit function parameters,
since no structural property of the code depends on their values.

OpenMP pragmas only change scheduling, never the arithmetic performed by a
loop nest, so a C++ loop nest and its pragma-annotated twin are modelled by
one Lean function; where the serial and the parallel member function of a
class differ in the operations they call (naive multiply versus blocked
multiply in `MultiHeadAttention`), two separate Lean functions mirror the
two member functions.
-/

namespace MicroTransformer

/-- Row-major dense 2-D matrix (class `Matrix` in transformer.h).  The C++
object holds `rows * cols` floats in a flat buffer indexed by
`i * cols + j`; here `entry i j` gives the value at logical index (i, j). -/
structure Matrix where
  rows : ℕ
  cols : ℕ
  entry : ℕ → ℕ → ℚ

/-- Error taxonomy of the core.  Every C++ `throw` site of the modelled code
is one constructor; `divByZero` stands for the hardware trap raised by a
`size_t` division with zero divisor (undefined behaviour that aborts the
program rather than throwing). -/
inductive Err where
  /-- thrown by `Matrix::operator*` and `Matrix::multiply_blocked` when
  `cols_ != other.rows_` ("Matrix dimensions ... for multiplication"). -/
  | matMulDims : Err
  /-- thrown by `Matrix::operator+` on a shape mismatch. -/
  | matAddDims : Err
  /-- thrown by `TransformerEncoder::forward_serial` / `forward_parallel`
  when the input shape is not `(seq_length, embed_dim)`. -/
  | inputDims : Err
  /-- thrown by the `MultiHeadAttention` constructor when
  `embed_dim % num_heads != 0` ("embed_dim must be divisible by num_heads"). -/
  | embedDivisibility : Err
  /-- integer division by zero in the member initializer
  `head_dim_(config.embed_dim / config.num_heads)` when `num_heads == 0`. -/
  | divByZero : Err
deriving DecidableEq, Repr

/-- Constant-filled matrix, `Matrix(rows, cols, value)`. -/
def Matrix.const (r c : ℕ) (v : ℚ) : Matrix :=
  ⟨r, c, fun _ _ => v⟩

/-- Naive triple-loop product, body of `Matrix::operator*`:
`result(i, j) = sum_k (*this)(i, k) * other(k, j)` with `k < cols_`. -/
def Matrix.mul (A B : Matrix) : Matrix :=
  ⟨A.rows, B.cols, fun i j => ∑ k ∈ Finset.range A.cols, A.entry i k * B.entry k j⟩

/-- Block size used by `Matrix::multiply_blocked` (`BLOCK_SIZE = 64`). -/
def BLOCK : ℕ := 64

/-- Number of iterations of a `for (bk = 0; bk < n; bk += BLOCK)` loop. -/
def numBlocks (n : ℕ) : ℕ := (n + BLOCK - 1) / BLOCK

/-- Blocked path of `Matrix::multiply_blocked`: each output cell accumulates,
block of `k` after block of `k`, the partial dot products
`sum_{k in [bk, min(bk+BLOCK, cols))} (*this)(i, k) * other(k, j)`.
The `bi`/`bj` tiling only partitions the output cells and does not change
what a given cell accumulates. -/
def Matrix.mulBlockedCore (A B : Matrix) : Matrix :=
  ⟨A.rows, B.cols, fun i j =>
    ∑ b ∈ Finset.range (numBlocks A.cols),
      ∑ k ∈ Finset.Ico (b * BLOCK) (min (b * BLOCK + BLOCK) A.cols),
        A.entry i k * B.entry k j⟩

/-- Full `Matrix::multiply_blocked` value: the blocked path runs only when
some dimension reaches `BLOCK`; otherwise it falls back to `operator*`. -/
def Matrix.mulBlocked (A B : Matrix) : Matrix :=
  if BLOCK ≤ A.rows ∨ BLOCK ≤ B.cols ∨ BLOCK ≤ A.cols then A.mulBlockedCore B
  else A.mul B

/-- Elementwise sum, body of `Matrix::operator+`. -/
def Matrix.add (A B : Matrix) : Matrix :=
  ⟨A.rows, A.cols, fun i j => A.entry i j + B.entry i j⟩

/-- Transposition: `result(j, i) = (*this)(i, j)`. -/
def Matrix.transpose (A : Matrix) : Matrix :=
  ⟨A.cols, A.rows, fun i j => A.entry j i⟩

/-- Fallible wrapper of `Matrix::operator*`, including its dimension check. -/
def Matrix.mulE (A B : Matrix) : Except Err Matrix :=
  if A.cols ≠ B.rows then .error .matMulDims else .ok (A.mul B)

/-- Fallible wrapper of `Matrix::multiply_blocked`: same dimension check as
`operator*`, then the blocked product. -/
def Matrix.mulBlockedE (A B : Matrix) : Except Err Matrix :=
  if A.cols ≠ B.rows then .error .matMulDims else .ok (A.mulBlocked B)

/-- Fallible wrapper of `Matrix::operator+`, including its shape check. -/
def Matrix.addE (A B : Matrix) : Except Err Matrix :=
  if A.rows ≠ B.rows ∨ A.cols ≠ B.cols then .error .matAddDims else .ok (A.add B)

/-- Shape predicate: `M` is an `r`-by-`c` matrix. -/
def Matrix.hasShape (M : Matrix) (r c : ℕ) : Prop :=
  M.rows = r ∧ M.cols = c

/-- Bit-exact observational equality of two matrix values: same shape and the
same stored value in every in-range cell (cells outside the logical shape do
not exist in the C++ buffer). -/
def Matrix.EntriesEq (A B : Matrix) : Prop :=
  A.rows = B.rows ∧ A.cols = B.cols ∧
    ∀ i < A.rows, ∀ j < A.cols, A.entry i j = B.entry i j

instance (A B : Matrix) : Decidable (A.EntriesEq B) := by
  unfold Matrix.EntriesEq; infer_instance

/-- Maximum absolute entrywise deviation between two matrices, the
`max_deviation` double loop of `PerformanceBenchmark::measure_execution`
(running maximum starting from 0). -/
def Matrix.maxAbsDiff (A B : Matrix) : ℚ :=
  (List.range A.rows).foldl
    (fun acc i =>
      (List.range A.cols).foldl (fun acc2 j => max acc2 |A.entry i j - B.entry i j|) acc)
    0

/-- Maximum absolute entry of a matrix (running maximum starting from 0);
this is the `max|naive(A,B)|` reference magnitude of the spec tolerance. -/
def Matrix.maxAbsEntry (M : Matrix) : ℚ :=
  (List.range M.rows).foldl
    (fun acc i =>
      (List.range M.cols).foldl (fun acc2 j => max acc2 |M.entry i j|) acc)
    0

/-- Model of `PerformanceBenchmark::verify_numerical_correctness`: shapes must
match and no entrywise deviation may exceed the tolerance. -/
def verifyNumericalCorrectness (A B : Matrix) (tol : ℚ) : Bool :=
  if A.rows ≠ B.rows ∨ A.cols ≠ B.cols then false
  else decide (∀ i < A.rows, ∀ j < A.cols, ¬ (|A.entry i j - B.entry i j| > tol))

@[ext]
theorem Matrix.ext_entry {A B : Matrix} (hr : A.rows = B.rows) (hc : A.cols = B.cols)
    (he : ∀ i j, A.entry i j = B.entry i j) : A = B := by
  cases A
  cases B
  simp only [Matrix.mk.injEq]
  refine ⟨hr, hc, ?_⟩
  funext i j
  exact he i j

theorem sum_Ico_blocks (f : ℕ → ℚ) (n m : ℕ) :
    ∑ b ∈ Finset.range m, ∑ k ∈ Finset.Ico (b * BLOCK) (min (b * BLOCK + BLOCK) n), f k
      = ∑ k ∈ Finset.Ico 0 (min (m * BLOCK) n), f k := by
  induction m with
  | zero => simp
  | succ m ih =>
      rw [Finset.sum_range_succ, ih]
      rcases le_or_lt n (m * BLOCK) with h | h
      · have h1 : min (m * BLOCK) n = n := by unfold BLOCK at *; omega
        have h2 : min (m * BLOCK + BLOCK) n = n := by unfold BLOCK at *; omega
        have h3 : min ((m + 1) * BLOCK) n = n := by unfold BLOCK at *; omega
        have h4 : Finset.Ico (m * BLOCK) (min (m * BLOCK + BLOCK) n) = ∅ := by
          apply Finset.Ico_eq_empty
          unfold BLOCK at *; omega
        rw [h1, h3, h4, Finset.sum_empty, add_zero]
      · have h1 : min (m * BLOCK) n = m * BLOCK := by unfold BLOCK at *; omega
        have h2 : min (m * BLOCK + BLOCK) n = min ((m + 1) * BLOCK) n := by
          unfold BLOCK at *
          omega
        rw [h1, h2]
        exact Finset.sum_Ico_consecutive f (Nat.zero_le _)
          (by unfold BLOCK at *; omega)

theorem n_le_numBlocks_mul (n : ℕ) : n ≤ numBlocks n * BLOCK := by
  unfold numBlocks BLOCK
  have h1 := Nat.div_add_mod (n + 64 - 1) 64
  have h2 : (n + 64 - 1) % 64 < 64 := Nat.mod_lt _ (by norm_num)
  omega

/-- In exact arithmetic the blocked accumulation of `multiply_blocked` sums
exactly the same products as the naive triple loop of `operator*`. -/
theorem Matrix.mulBlockedCore_eq_mul (A B : Matrix) : A.mulBlockedCore B = A.mul B := by
  refine Matrix.ext_entry rfl rfl ?_
  intro i j
  show (∑ b ∈ Finset.range (numBlocks A.cols),
      ∑ k ∈ Finset.Ico (b * BLOCK) (min (b * BLOCK + BLOCK) A.cols),
        A.entry i k * B.entry k j)
    = ∑ k ∈ Finset.range A.cols, A.entry i k * B.entry k j
  rw [sum_Ico_blocks]
  have hmin : min (numBlocks A.cols * BLOCK) A.cols = A.cols :=
    min_eq_right (n_le_numBlocks_mul A.cols)
  rw [hmin, ← Finset.range_eq_Ico]

theorem Matrix.mulBlocked_eq_mul (A B : Matrix) : A.mulBlocked B = A.mul B := by
  unfold Matrix.mulBlocked
  split
  · exact A.mulBlockedCore_eq_mul B
  · rfl

theorem Matrix.mulBlockedE_eq_mulE (A B : Matrix) : A.mulBlockedE B = A.mulE B := by
  unfold Matrix.mulBlockedE Matrix.mulE
  rw [Matrix.mulBlocked_eq_mul]

theorem foldl_max_ge_init (g : ℕ → ℚ) (l : List ℕ) (a : ℚ) :
    a ≤ l.foldl (fun acc x => max acc (g x)) a := by
  induction l generalizing a with
  | nil => simp
  | cons x t ih => exact le_trans (le_max_left a (g x)) (ih (max a (g x)))

theorem foldl_max_le_of_all (g : ℕ → ℚ) (l : List ℕ) (a c : ℚ)
    (ha : a ≤ c) (hl : ∀ x ∈ l, g x ≤ c) :
    l.foldl (fun acc x => max acc (g x)) a ≤ c := by
  induction l generalizing a with
  | nil => simpa using ha
  | cons x t ih =>
      refine ih (max a (g x)) (max_le ha (hl x (by simp))) ?_
      intro y hy
      exact hl y (by simp [hy])

theorem foldl_max_mem_le (g : ℕ → ℚ) (l : List ℕ) (a : ℚ) (x : ℕ) (hx : x ∈ l) :
    g x ≤ l.foldl (fun acc x => max acc (g x)) a := by
  induction l generalizing a with
  | nil => cases hx
  | cons y t ih =>
      rcases List.mem_cons.mp hx with h | h
      · subst h
        exact le_trans (le_max_right a (g x)) (foldl_max_ge_init g t (max a (g x)))
      · exact ih (max a (g y)) h

theorem foldl_max_cases (g : ℕ → ℚ) (l : List ℕ) (a : ℚ) :
    l.foldl (fun acc x => max acc (g x)) a = a ∨
      ∃ x ∈ l, l.foldl (fun acc x => max acc (g x)) a = g x := by
  induction l generalizing a with
  | nil => exact Or.inl rfl
  | cons y t ih =>
      rcases ih (max a (g y)) with h | ⟨x, hx, hres⟩
      · rcases max_choice a (g y) with hm | hm
        · exact Or.inl (by rw [List.foldl_cons, h, hm])
        · exact Or.inr ⟨y, by simp, by rw [List.foldl_cons, h, hm]⟩
      · exact Or.inr ⟨x, by simp [hx], by rw [List.foldl_cons, hres]⟩

theorem foldl_ge_init_of_step (step : ℚ → ℕ → ℚ) (l : List ℕ) (a : ℚ)
    (h : ∀ acc x, acc ≤ step acc x) : a ≤ l.foldl step a := by
  induction l generalizing a with
  | nil => simp
  | cons x t ih => exact le_trans (h a x) (ih (step a x))

theorem foldl_le_of_step (step : ℚ → ℕ → ℚ) (l : List ℕ) (a c : ℚ)
    (ha : a ≤ c) (h : ∀ acc, acc ≤ c → ∀ x, step acc x ≤ c) :
    l.foldl step a ≤ c := by
  induction l generalizing a with
  | nil => simpa using ha
  | cons x t ih => exact ih (step a x) (h a ha x)

theorem maxAbsDiff_self_eq_zero (A : Matrix) : A.maxAbsDiff A = 0 := by
  unfold Matrix.maxAbsDiff
  apply le_antisymm
  · apply foldl_le_of_step _ _ _ _ le_rfl
    intro acc hacc i
    apply foldl_max_le_of_all _ _ _ _ hacc
    intro j _
    simp
  · apply foldl_ge_init_of_step
    intro acc i
    exact foldl_max_ge_init _ _ acc

theorem maxAbsEntry_nonneg (M : Matrix) : 0 ≤ M.maxAbsEntry := by
  unfold Matrix.maxAbsEntry
  apply foldl_ge_init_of_step
  intro acc i
  exact foldl_max_ge_init _ _ acc

theorem verify_self (A : Matrix) (tol : ℚ) (htol : 0 ≤ tol) :
    verifyNumericalCorrectness A A tol = true := by
  unfold verifyNumericalCorrectness
  rw [if_neg (by simp)]
  simp only [decide_eq_true_eq]
  intro i _ j _
  simp [htol, not_lt]

/-- Hyperparameter bundle `TransformerConfig` of transformer.h, with the same
defaults.  The unused `dropout_rate` field ("not implemented" in the source)
is omitted; `epsilon` (layer-norm denominator offset) is carried exactly. -/
structure TransformerConfig where
  seq_length : ℕ := 128
  embed_dim : ℕ := 512
  num_heads : ℕ := 8
  ff_dim : ℕ := 2048
  num_layers : ℕ := 6
  epsilon : ℚ := 1 / 1000000
deriving DecidableEq, Repr

/-- Caller-supplied entry generators standing for one call of
`Matrix::randomize` per weight tensor of one encoder layer.  The C++ code
fills the weights with uniform random samples at construction time and no
modelled property depends on the sampled values, so the random streams are
abstracted into arbitrary entry functions. -/
structure LayerWeights where
  wq : ℕ → ℕ → ℚ
  wk : ℕ → ℕ → ℚ
  wv : ℕ → ℕ → ℚ
  wo : ℕ → ℕ → ℚ
  w1 : ℕ → ℕ → ℚ
  bb1 : ℕ → ℕ → ℚ
  w2 : ℕ → ℕ → ℚ
  bb2 : ℕ → ℕ → ℚ

/-- Multi-head self-attention layer state (class `MultiHeadAttention`). -/
structure MultiHeadAttention where
  config : TransformerConfig
  head_dim : ℕ
  W_q : Matrix
  W_k : Matrix
  W_v : Matrix
  W_o : Matrix

/-- Constructor `MultiHeadAttention::MultiHeadAttention`.  The member
initializer list evaluates `head_dim_(config.embed_dim / config.num_heads)`
before the constructor body runs its divisibility check; with
`num_heads == 0` that `size_t` division traps (divByZero) and the
`embed_dim % num_heads != 0` validation in the body is never reached.
On a throw the partially built members are destroyed, so the error carries
no attention state. -/
def mkMultiHeadAttention (cfg : TransformerConfig)
    (wq wk wv wo : ℕ → ℕ → ℚ) : Except Err MultiHeadAttention :=
  if cfg.num_heads = 0 then .error .divByZero
  else if cfg.embed_dim % cfg.num_heads ≠ 0 then .error .embedDivisibility
  else .ok
    { config := cfg
      head_dim := cfg.embed_dim / cfg.num_heads
      W_q := ⟨cfg.embed_dim, cfg.embed_dim, wq⟩
      W_k := ⟨cfg.embed_dim, cfg.embed_dim, wk⟩
      W_v := ⟨cfg.embed_dim, cfg.embed_dim, wv⟩
      W_o := ⟨cfg.embed_dim, cfg.embed_dim, wo⟩ }

/-- Running row maximum of `MultiHeadAttention::softmax`: start from column 0
and fold `max` over the remaining columns, exactly as the
`max_val = input(i, 0); for (j = 1; ...)` loop does. -/
def rowMax (M : Matrix) (i : ℕ) : ℚ :=
  (List.range (M.cols - 1)).foldl (fun acc j => max acc (M.entry i (j + 1))) (M.entry i 0)

/-- Row-wise numerically-stable softmax, `MultiHeadAttention::softmax`.
The serial branch and the pragma-annotated parallel branch of the C++
function perform identical per-entry arithmetic, so both are modelled by
this single function.  `E` is the `std::exp` parameter. -/
def softmax (E : ℚ → ℚ) (M : Matrix) : Matrix :=
  ⟨M.rows, M.cols, fun i j =>
    E (M.entry i j - rowMax M i) /
      ∑ k ∈ Finset.range M.cols, E (M.entry i k - rowMax M i)⟩

/-- Scores matrix of `MultiHeadAttention::scaled_dot_product_attention`:
`scores(i, j) = (sum_k Q(i, k) * K_T(k, j)) * (1 / sqrt(head_dim))`.
`Sq` is the `std::sqrt` parameter. -/
def attentionScores (Sq : ℚ → ℚ) (head_dim : ℕ) (Q K : Matrix) : Matrix :=
  ⟨Q.rows, K.rows, fun i j =>
    (∑ k ∈ Finset.range Q.cols, Q.entry i k * K.transpose.entry k j) *
      (1 / Sq (head_dim : ℚ))⟩

/-- Body of `scaled_dot_product_attention` after the scores: softmax the
scores, then `attention_weights * V` through `Matrix::operator*`.  The two
`use_parallel` branches of the C++ function run the same arithmetic. -/
def scaledDotProductAttention (E Sq : ℚ → ℚ) (head_dim : ℕ) (Q K V : Matrix) :
    Except Err Matrix :=
  (softmax E (attentionScores Sq head_dim Q K)).mulE V

/-- Head `h` of a projected matrix, as extracted by
`MultiHeadAttention::split_heads`: a `(seq_length, head_dim)` matrix with
`heads[h](i, j) = input(i, h * head_dim + j)`. -/
def headOf (cfg : TransformerConfig) (head_dim : ℕ) (M : Matrix) (h : ℕ) : Matrix :=
  ⟨cfg.seq_length, head_dim, fun i j => M.entry i (h * head_dim + j)⟩

/-- Full output of `split_heads`: the list of the `num_heads` head matrices. -/
def splitHeads (cfg : TransformerConfig) (head_dim : ℕ) (M : Matrix) : List Matrix :=
  (List.range cfg.num_heads).map (headOf cfg head_dim M)

/-- Output of `MultiHeadAttention::concat_heads`: a zero-initialised
`(seq_length, embed_dim)` matrix whose cell `(i, h * head_dim + j)` receives
`heads[h](i, j)` for `h < num_heads`, `j < head_dim`; cells beyond
`num_heads * head_dim` columns are never written and keep their zero fill. -/
def concatHeads (cfg : TransformerConfig) (head_dim : ℕ) (heads : List Matrix) : Matrix :=
  ⟨cfg.seq_length, cfg.embed_dim, fun i c =>
    if head_dim ≠ 0 ∧ c / head_dim < cfg.num_heads then
      (heads.getD (c / head_dim) (Matrix.const 0 0 0)).entry i (c % head_dim)
    else 0⟩

/-- Serial attention path `MultiHeadAttention::forward_serial`: naive
projections through `operator*`, head split, per-head scaled dot-product
attention, concatenation, output projection through `operator*`. -/
def MultiHeadAttention.forwardSerial (E Sq : ℚ → ℚ) (A : MultiHeadAttention)
    (input : Matrix) : Except Err Matrix := do
  let Q ← input.mulE A.W_q
  let K ← input.mulE A.W_k
  let V ← input.mulE A.W_v
  let outs ← (List.range A.config.num_heads).mapM fun h =>
    scaledDotProductAttention E Sq A.head_dim
      (headOf A.config A.head_dim Q h)
      (headOf A.config A.head_dim K h)
      (headOf A.config A.head_dim V h)
  (concatHeads A.config A.head_dim outs).mulE A.W_o

/-- Parallel attention path `MultiHeadAttention::forward_parallel`: the three
projections and the output projection use `multiply_blocked` (the OpenMP
sections and the per-head loop only distribute the same computations over
workers). -/
def MultiHeadAttention.forwardParallel (E Sq : ℚ → ℚ) (A : MultiHeadAttention)
    (input : Matrix) : Except Err Matrix := do
  let Q ← input.mulBlockedE A.W_q
  let K ← input.mulBlockedE A.W_k
  let V ← input.mulBlockedE A.W_v
  let outs ← (List.range A.config.num_heads).mapM fun h =>
    scaledDotProductAttention E Sq A.head_dim
      (headOf A.config A.head_dim Q h)
      (headOf A.config A.head_dim K h)
      (headOf A.config A.head_dim V h)
  (concatHeads A.config A.head_dim outs).mulBlockedE A.W_o

/-- Dispatcher `MultiHeadAttention::forward`. -/
def MultiHeadAttention.forward (E Sq : ℚ → ℚ) (A : MultiHeadAttention)
    (input : Matrix) (use_parallel : Bool) : Except Err Matrix :=
  if use_parallel then A.forwardParallel E Sq input else A.forwardSerial E Sq input

/-- Feed-forward network state (class `FeedForwardNetwork`). -/
structure FeedForwardNetwork where
  config : TransformerConfig
  W1 : Matrix
  b1 : Matrix
  W2 : Matrix
  b2 : Matrix

/-- Constructor `FeedForwardNetwork::FeedForwardNetwork` (never throws). -/
def mkFeedForwardNetwork (cfg : TransformerConfig)
    (w1 bb1 w2 bb2 : ℕ → ℕ → ℚ) : FeedForwardNetwork :=
  { config := cfg
    W1 := ⟨cfg.embed_dim, cfg.ff_dim, w1⟩
    b1 := ⟨1, cfg.ff_dim, bb1⟩
    W2 := ⟨cfg.ff_dim, cfg.embed_dim, w2⟩
    b2 := ⟨1, cfg.embed_dim, bb2⟩ }

/-- Row-broadcast bias add: `M(i, j) += bias(0, j)` for every cell of `M`. -/
def addRowBias (M bias : Matrix) : Matrix :=
  ⟨M.rows, M.cols, fun i j => M.entry i j + bias.entry 0 j⟩

/-- Elementwise rectifier `FeedForwardNetwork::relu` (`max(0, x)` on every
buffer cell; both `use_parallel` branches are the same arithmetic). -/
def relu (M : Matrix) : Matrix :=
  ⟨M.rows, M.cols, fun i j => max 0 (M.entry i j)⟩

/-- Serial path `FeedForwardNetwork::forward_serial`:
`(ReLU(input * W1 + b1)) * W2 + b2` with row-broadcast biases. -/
def FeedForwardNetwork.forwardSerial (F : FeedForwardNetwork) (input : Matrix) :
    Except Err Matrix := do
  let hidden ← input.mulE F.W1
  let activated := relu (addRowBias hidden F.b1)
  let output ← activated.mulE F.W2
  pure (addRowBias output F.b2)

/-- Parallel path `FeedForwardNetwork::forward_parallel`: identical
arithmetic to the serial path (the pragmas only parallelise the loops). -/
def FeedForwardNetwork.forwardParallel (F : FeedForwardNetwork) (input : Matrix) :
    Except Err Matrix := do
  let hidden ← input.mulE F.W1
  let activated := relu (addRowBias hidden F.b1)
  let output ← activated.mulE F.W2
  pure (addRowBias output F.b2)

/-- Dispatcher `FeedForwardNetwork::forward`. -/
def FeedForwardNetwork.forward (F : FeedForwardNetwork) (input : Matrix)
    (use_parallel : Bool) : Except Err Matrix :=
  if use_parallel then F.forwardParallel input else F.forwardSerial input

/-- Layer-normalization state (class `LayerNorm`). -/
structure LayerNorm where
  config : TransformerConfig
  gamma : Matrix
  beta : Matrix

/-- Constructor `LayerNorm::LayerNorm`: `gamma` is filled with 1 and `beta`
with 0, both of shape `(1, embed_dim)`; nothing is randomised. -/
def mkLayerNorm (cfg : TransformerConfig) : LayerNorm :=
  { config := cfg
    gamma := Matrix.const 1 cfg.embed_dim 1
    beta := Matrix.const 1 cfg.embed_dim 0 }

/-- Row mean computed by `LayerNorm::forward_serial`:
`mean = (sum_j input(i, j)) / cols`. -/
def rowMean (M : Matrix) (i : ℕ) : ℚ :=
  (∑ j ∈ Finset.range M.cols, M.entry i j) / M.cols

/-- Biased row variance computed by `LayerNorm::forward_serial`:
`variance = (sum_j (input(i, j) - mean) * (input(i, j) - mean)) / cols`. -/
def rowVar (M : Matrix) (i : ℕ) : ℚ :=
  (∑ j ∈ Finset.range M.cols,
      (M.entry i j - rowMean M i) * (M.entry i j - rowMean M i)) / M.cols

/-- Serial path `LayerNorm::forward_serial`: per row, normalise by
`std_dev = sqrt(variance + epsilon)` and apply `gamma`/`beta`. -/
def LayerNorm.forwardSerial (Sq : ℚ → ℚ) (L : LayerNorm) (input : Matrix) : Matrix :=
  ⟨input.rows, input.cols, fun i j =>
    L.gamma.entry 0 j *
        ((input.entry i j - rowMean input i) / Sq (rowVar input i + L.config.epsilon)) +
      L.beta.entry 0 j⟩

/-- Parallel path `LayerNorm::forward_parallel`: identical per-row arithmetic
to the serial path (the pragma only distributes rows over workers). -/
def LayerNorm.forwardParallel (Sq : ℚ → ℚ) (L : LayerNorm) (input : Matrix) : Matrix :=
  ⟨input.rows, input.cols, fun i j =>
    L.gamma.entry 0 j *
        ((input.entry i j - rowMean input i) / Sq (rowVar input i + L.config.epsilon)) +
      L.beta.entry 0 j⟩

/-- Dispatcher `LayerNorm::forward`. -/
def LayerNorm.forward (Sq : ℚ → ℚ) (L : LayerNorm) (input : Matrix)
    (use_parallel : Bool) : Matrix :=
  if use_parallel then L.forwardParallel Sq input else L.forwardSerial Sq input

/-- One encoder layer (class `TransformerEncoderLayer`). -/
structure TransformerEncoderLayer where
  config : TransformerConfig
  attention : MultiHeadAttention
  ffn : FeedForwardNetwork
  norm1 : LayerNorm
  norm2 : LayerNorm

/-- Constructor `TransformerEncoderLayer::TransformerEncoderLayer`: builds
the attention sublayer (which may throw), the feed-forward network and the
two layer norms. -/
def mkTransformerEncoderLayer (cfg : TransformerConfig) (W : LayerWeights) :
    Except Err TransformerEncoderLayer := do
  let att ← mkMultiHeadAttention cfg W.wq W.wk W.wv W.wo
  pure
    { config := cfg
      attention := att
      ffn := mkFeedForwardNetwork cfg W.w1 W.bb1 W.w2 W.bb2
      norm1 := mkLayerNorm cfg
      norm2 := mkLayerNorm cfg }

/-- Serial path `TransformerEncoderLayer::forward_serial`: post-norm
composition attention, residual, norm1, FFN, residual, norm2. -/
def TransformerEncoderLayer.forwardSerial (E Sq : ℚ → ℚ)
    (L : TransformerEncoderLayer) (input : Matrix) : Except Err Matrix := do
  let attention_output ← L.attention.forwardSerial E Sq input
  let residual1 ← input.addE attention_output
  let norm1_output := L.norm1.forwardSerial Sq residual1
  let ffn_output ← L.ffn.forwardSerial norm1_output
  let residual2 ← norm1_output.addE ffn_output
  pure (L.norm2.forwardSerial Sq residual2)

/-- Parallel path `TransformerEncoderLayer::forward_parallel`: the same
composition through the parallel sublayer paths. -/
def TransformerEncoderLayer.forwardParallel (E Sq : ℚ → ℚ)
    (L : TransformerEncoderLayer) (input : Matrix) : Except Err Matrix := do
  let attention_output ← L.attention.forwardParallel E Sq input
  let residual1 ← input.addE attention_output
  let norm1_output := L.norm1.forwardParallel Sq residual1
  let ffn_output ← L.ffn.forwardParallel norm1_output
  let residual2 ← norm1_output.addE ffn_output
  pure (L.norm2.forwardParallel Sq residual2)

/-- Dispatcher `TransformerEncoderLayer::forward`. -/
def TransformerEncoderLayer.forward (E Sq : ℚ → ℚ) (L : TransformerEncoderLayer)
    (input : Matrix) (use_parallel : Bool) : Except Err Matrix :=
  if use_parallel then L.forwardParallel E Sq input else L.forwardSerial E Sq input

/-- Encoder stack (class `TransformerEncoder`). -/
structure TransformerEncoder where
  config : TransformerConfig
  layers : List TransformerEncoderLayer

/-- Constructor `TransformerEncoder::TransformerEncoder`: builds
`num_layers` encoder layers in order, each with its own random weights
(`Ws i` supplies the streams of layer `i`); a throw from any layer
constructor aborts the whole construction. -/
def mkTransformerEncoder (cfg : TransformerConfig) (Ws : ℕ → LayerWeights) :
    Except Err TransformerEncoder := do
  let layers ← (List.range cfg.num_layers).mapM fun i =>
    mkTransformerEncoderLayer cfg (Ws i)
  pure { config := cfg, layers := layers }

/-- Serial path `TransformerEncoder::forward_serial`: validate the input
shape against `(seq_length, embed_dim)`, then thread the input through the
layers in order. -/
def TransformerEncoder.forwardSerial (E Sq : ℚ → ℚ) (T : TransformerEncoder)
    (input : Matrix) : Except Err Matrix :=
  if input.rows ≠ T.config.seq_length ∨ input.cols ≠ T.config.embed_dim then
    .error .inputDims
  else
    T.layers.foldlM (fun current L => L.forwardSerial E Sq current) input

/-- Parallel path `TransformerEncoder::forward_parallel`: same validation,
layers applied in order through their parallel paths. -/
def TransformerEncoder.forwardParallel (E Sq : ℚ → ℚ) (T : TransformerEncoder)
    (input : Matrix) : Except Err Matrix :=
  if input.rows ≠ T.config.seq_length ∨ input.cols ≠ T.config.embed_dim then
    .error .inputDims
  else
    T.layers.foldlM (fun current L => L.forwardParallel E Sq current) input

/-- Dispatcher `TransformerEncoder::forward`. -/
def TransformerEncoder.forward (E Sq : ℚ → ℚ) (T : TransformerEncoder)
    (input : Matrix) (use_parallel : Bool) : Except Err Matrix :=
  if use_parallel then T.forwardParallel E Sq input else T.forwardSerial E Sq input

/-! Basic reduction and shape lemmas. -/

@[simp]
theorem bindE_ok {α β : Type} (a : α) (f : α → Except Err β) :
    (Except.ok a : Except Err α) >>= f = f a := rfl

@[simp]
theorem bindE_error {α β : Type} (e : Err) (f : α → Except Err β) :
    (Except.error e : Except Err α) >>= f = Except.error e := rfl

@[simp] theorem Matrix.mul_rows (A B : Matrix) : (A.mul B).rows = A.rows := rfl

@[simp] theorem Matrix.mul_cols (A B : Matrix) : (A.mul B).cols = B.cols := rfl

@[simp] theorem Matrix.add_rows (A B : Matrix) : (A.add B).rows = A.rows := rfl

@[simp] theorem Matrix.add_cols (A B : Matrix) : (A.add B).cols = A.cols := rfl

@[simp] theorem Matrix.transpose_rows (A : Matrix) : A.transpose.rows = A.cols := rfl

@[simp] theorem Matrix.transpose_cols (A : Matrix) : A.transpose.cols = A.rows := rfl

@[simp] theorem Matrix.const_rows (r c : ℕ) (v : ℚ) : (Matrix.const r c v).rows = r := rfl

@[simp] theorem Matrix.const_cols (r c : ℕ) (v : ℚ) : (Matrix.const r c v).cols = c := rfl

@[simp] theorem Matrix.const_entry (r c : ℕ) (v : ℚ) (i j : ℕ) :
    (Matrix.const r c v).entry i j = v := rfl

@[simp] theorem softmax_rows (E : ℚ → ℚ) (M : Matrix) : (softmax E M).rows = M.rows := rfl

@[simp] theorem softmax_cols (E : ℚ → ℚ) (M : Matrix) : (softmax E M).cols = M.cols := rfl

@[simp] theorem attentionScores_rows (Sq : ℚ → ℚ) (d : ℕ) (Q K : Matrix) :
    (attentionScores Sq d Q K).rows = Q.rows := rfl

@[simp] theorem attentionScores_cols (Sq : ℚ → ℚ) (d : ℕ) (Q K : Matrix) :
    (attentionScores Sq d Q K).cols = K.rows := rfl

@[simp] theorem headOf_rows (cfg : TransformerConfig) (d : ℕ) (M : Matrix) (h : ℕ) :
    (headOf cfg d M h).rows = cfg.seq_length := rfl

@[simp] theorem headOf_cols (cfg : TransformerConfig) (d : ℕ) (M : Matrix) (h : ℕ) :
    (headOf cfg d M h).cols = d := rfl

@[simp] theorem concatHeads_rows (cfg : TransformerConfig) (d : ℕ) (hs : List Matrix) :
    (concatHeads cfg d hs).rows = cfg.seq_length := rfl

@[simp] theorem concatHeads_cols (cfg : TransformerConfig) (d : ℕ) (hs : List Matrix) :
    (concatHeads cfg d hs).cols = cfg.embed_dim := rfl

@[simp] theorem relu_rows (M : Matrix) : (relu M).rows = M.rows := rfl

@[simp] theorem relu_cols (M : Matrix) : (relu M).cols = M.cols := rfl

@[simp] theorem addRowBias_rows (M b : Matrix) : (addRowBias M b).rows = M.rows := rfl

@[simp] theorem addRowBias_cols (M b : Matrix) : (addRowBias M b).cols = M.cols := rfl

@[simp] theorem layerNorm_forwardSerial_rows (Sq : ℚ → ℚ) (L : LayerNorm) (M : Matrix) :
    (L.forwardSerial Sq M).rows = M.rows := rfl

@[simp] theorem layerNorm_forwardSerial_cols (Sq : ℚ → ℚ) (L : LayerNorm) (M : Matrix) :
    (L.forwardSerial Sq M).cols = M.cols := rfl

theorem Matrix.mulE_ok (A B : Matrix) (h : A.cols = B.rows) :
    A.mulE B = Except.ok (A.mul B) := by
  simp [Matrix.mulE, h]

theorem Matrix.mulE_error (A B : Matrix) (h : A.cols ≠ B.rows) :
    A.mulE B = Except.error Err.matMulDims := by
  simp [Matrix.mulE, h]

theorem Matrix.addE_ok (A B : Matrix) (hr : A.rows = B.rows) (hc : A.cols = B.cols) :
    A.addE B = Except.ok (A.add B) := by
  simp [Matrix.addE, hr, hc]

/-! List-level monadic helpers for `Except`. -/

theorem mapM_ok_of_forall {α β : Type} (f : α → Except Err β) (g : α → β) (l : List α)
    (h : ∀ x ∈ l, f x = Except.ok (g x)) :
    l.mapM f = Except.ok (l.map g) := by
  induction l with
  | nil => rfl
  | cons a t ih =>
      rw [List.mapM_cons, h a (List.mem_cons_self a t),
        ih fun x hx => h x (List.mem_cons_of_mem a hx)]
      rfl

theorem mapM_range_error {β : Type} (f : ℕ → Except Err β) (n : ℕ) (e : Err)
    (h : f 0 = Except.error e) (hn : n ≠ 0) :
    (List.range n).mapM f = Except.error e := by
  obtain ⟨m, rfl⟩ : ∃ m, n = m + 1 := ⟨n - 1, by omega⟩
  rw [List.range_succ_eq_map, List.mapM_cons, h]
  rfl

theorem mapM_ok_mem {α β : Type} (f : α → Except Err β) (l : List α) (ys : List β)
    (h : l.mapM f = Except.ok ys) : ∀ y ∈ ys, ∃ x ∈ l, f x = Except.ok y := by
  induction l generalizing ys with
  | nil =>
      simp only [List.mapM_nil] at h
      cases h
      simp
  | cons a t ih =>
      rw [List.mapM_cons] at h
      cases hfa : f a with
      | error e => rw [hfa] at h; cases h
      | ok b =>
          rw [hfa] at h
          cases hft : t.mapM f with
          | error e => rw [hft] at h; cases h
          | ok bs =>
              rw [hft] at h
              simp only [bindE_ok] at h
              cases h
              intro y hy
              rcases List.mem_cons.mp hy with rfl | hy
              · exact ⟨a, by simp, hfa⟩
              · obtain ⟨x, hx, hfx⟩ := ih bs hft y hy
                exact ⟨x, by simp [hx], hfx⟩

/-! Well-formedness of constructed components: the shapes the constructors
give to the weight tensors. -/

/-- Shapes of the four projection matrices of a built attention layer. -/
def MultiHeadAttention.WF (A : MultiHeadAttention) : Prop :=
  A.W_q.hasShape A.config.embed_dim A.config.embed_dim ∧
  A.W_k.hasShape A.config.embed_dim A.config.embed_dim ∧
  A.W_v.hasShape A.config.embed_dim A.config.embed_dim ∧
  A.W_o.hasShape A.config.embed_dim A.config.embed_dim

/-- Shapes of the weight tensors of a built feed-forward network. -/
def FeedForwardNetwork.WF (F : FeedForwardNetwork) : Prop :=
  F.W1.hasShape F.config.embed_dim F.config.ff_dim ∧
  F.b1.hasShape 1 F.config.ff_dim ∧
  F.W2.hasShape F.config.ff_dim F.config.embed_dim ∧
  F.b2.hasShape 1 F.config.embed_dim

/-- Consistency of a built encoder layer with its configuration. -/
def TransformerEncoderLayer.WF (cfg : TransformerConfig)
    (L : TransformerEncoderLayer) : Prop :=
  L.config = cfg ∧ L.attention.config = cfg ∧ L.attention.WF ∧
  L.ffn.config = cfg ∧ L.ffn.WF

theorem mkMultiHeadAttention_ok_elim (cfg : TransformerConfig)
    (wq wk wv wo : ℕ → ℕ → ℚ) (A : MultiHeadAttention)
    (h : mkMultiHeadAttention cfg wq wk wv wo = Except.ok A) :
    A.config = cfg ∧ A.head_dim = cfg.embed_dim / cfg.num_heads ∧ A.WF ∧
      cfg.num_heads ≠ 0 ∧ cfg.embed_dim % cfg.num_heads = 0 := by
  unfold mkMultiHeadAttention at h
  split at h
  · cases h
  · split at h
    · cases h
    · cases h
      refine ⟨rfl, rfl, ?_, by assumption, by omega⟩
      exact ⟨⟨rfl, rfl⟩, ⟨rfl, rfl⟩, ⟨rfl, rfl⟩, ⟨rfl, rfl⟩⟩

theorem mkFeedForwardNetwork_WF (cfg : TransformerConfig) (w1 bb1 w2 bb2 : ℕ → ℕ → ℚ) :
    (mkFeedForwardNetwork cfg w1 bb1 w2 bb2).WF ∧
      (mkFeedForwardNetwork cfg w1 bb1 w2 bb2).config = cfg :=
  ⟨⟨⟨rfl, rfl⟩, ⟨rfl, rfl⟩, ⟨rfl, rfl⟩, ⟨rfl, rfl⟩⟩, rfl⟩

theorem mkTransformerEncoderLayer_ok_elim (cfg : TransformerConfig) (W : LayerWeights)
    (L : TransformerEncoderLayer)
    (h : mkTransformerEncoderLayer cfg W = Except.ok L) : L.WF cfg := by
  unfold mkTransformerEncoderLayer at h
  cases hA : mkMultiHeadAttention cfg W.wq W.wk W.wv W.wo with
  | error e => rw [hA] at h; cases h
  | ok att =>
      rw [hA] at h
      simp only [bindE_ok] at h
      cases h
      obtain ⟨hcfg, _, hWF, _, _⟩ := mkMultiHeadAttention_ok_elim cfg _ _ _ _ att hA
      exact ⟨rfl, hcfg, hWF, rfl, (mkFeedForwardNetwork_WF cfg _ _ _ _).1⟩

theorem mkTransformerEncoder_ok_elim (cfg : TransformerConfig) (Ws : ℕ → LayerWeights)
    (T : TransformerEncoder) (h : mkTransformerEncoder cfg Ws = Except.ok T) :
    T.config = cfg ∧ ∀ L ∈ T.layers, L.WF cfg := by
  unfold mkTransformerEncoder at h
  cases hm : (List.range cfg.num_layers).mapM (fun i => mkTransformerEncoderLayer cfg (Ws i)) with
  | error e => rw [hm] at h; cases h
  | ok ls =>
      rw [hm] at h
      simp only [bindE_ok] at h
      cases h
      refine ⟨rfl, fun L hL => ?_⟩
      obtain ⟨i, _, hfi⟩ := mapM_ok_mem _ _ _ hm L hL
      exact mkTransformerEncoderLayer_ok_elim cfg (Ws i) L hfi

/-! Serial path equals parallel path: in exact arithmetic the only
difference between the two member functions of any block is
`multiply_blocked` versus `operator*`, and those agree. -/

theorem mha_forwardParallel_eq_forwardSerial (E Sq : ℚ → ℚ) (A : MultiHeadAttention)
    (input : Matrix) :
    A.forwardParallel E Sq input = A.forwardSerial E Sq input := by
  unfold MultiHeadAttention.forwardParallel MultiHeadAttention.forwardSerial
  simp only [Matrix.mulBlockedE_eq_mulE]

theorem ffn_forwardParallel_eq_forwardSerial (F : FeedForwardNetwork) (input : Matrix) :
    F.forwardParallel input = F.forwardSerial input := rfl

theorem layerNorm_forwardParallel_eq_forwardSerial (Sq : ℚ → ℚ) (L : LayerNorm)
    (input : Matrix) :
    L.forwardParallel Sq input = L.forwardSerial Sq input := rfl

theorem layer_forwardParallel_eq_forwardSerial (E Sq : ℚ → ℚ)
    (L : TransformerEncoderLayer) (input : Matrix) :
    L.forwardParallel E Sq input = L.forwardSerial E Sq input := by
  unfold TransformerEncoderLayer.forwardParallel TransformerEncoderLayer.forwardSerial
  simp only [mha_forwardParallel_eq_forwardSerial,
    ffn_forwardParallel_eq_forwardSerial, layerNorm_forwardParallel_eq_forwardSerial]

theorem encoder_forwardParallel_eq_forwardSerial (E Sq : ℚ → ℚ)
    (T : TransformerEncoder) (input : Matrix) :
    T.forwardParallel E Sq input = T.forwardSerial E Sq input := by
  unfold TransformerEncoder.forwardParallel TransformerEncoder.forwardSerial
  simp only [layer_forwardParallel_eq_forwardSerial]

/-! Success lemmas: on inputs with the configured column count every
fallible step of the forward pass takes its ok branch, and the result
shapes are the configured ones. -/

theorem sdpa_ok (E Sq : ℚ → ℚ) (d : ℕ) (Q K V : Matrix) (h : K.rows = V.rows) :
    scaledDotProductAttention E Sq d Q K V =
      Except.ok ((softmax E (attentionScores Sq d Q K)).mul V) := by
  unfold scaledDotProductAttention
  exact Matrix.mulE_ok _ _ (by simp [h])

theorem mha_forwardSerial_ok (E Sq : ℚ → ℚ) (A : MultiHeadAttention) (hA : A.WF)
    (X : Matrix) (hc : X.cols = A.config.embed_dim) :
    ∃ Y, A.forwardSerial E Sq X = Except.ok Y ∧
      Y.rows = A.config.seq_length ∧ Y.cols = A.config.embed_dim := by
  obtain ⟨⟨hqr, _⟩, ⟨hkr, _⟩, ⟨hvr, _⟩, ⟨hor, hoc⟩⟩ := hA
  unfold MultiHeadAttention.forwardSerial
  rw [Matrix.mulE_ok _ _ (by rw [hc, hqr]), Matrix.mulE_ok _ _ (by rw [hc, hkr]),
    Matrix.mulE_ok _ _ (by rw [hc, hvr])]
  simp only [bindE_ok]
  rw [mapM_ok_of_forall _
    (fun h => (softmax E (attentionScores Sq A.head_dim
        (headOf A.config A.head_dim (X.mul A.W_q) h)
        (headOf A.config A.head_dim (X.mul A.W_k) h))).mul
      (headOf A.config A.head_dim (X.mul A.W_v) h))
    _ (fun h _ => sdpa_ok E Sq A.head_dim _ _ _ (by simp))]
  simp only [bindE_ok]
  rw [Matrix.mulE_ok _ _ (by simp [hor])]
  exact ⟨_, rfl, rfl, hoc⟩

theorem mha_forwardSerial_error (E Sq : ℚ → ℚ) (A : MultiHeadAttention) (hA : A.WF)
    (X : Matrix) (hc : X.cols ≠ A.config.embed_dim) :
    A.forwardSerial E Sq X = Except.error Err.matMulDims := by
  obtain ⟨⟨hqr, _⟩, _, _, _⟩ := hA
  unfold MultiHeadAttention.forwardSerial
  rw [Matrix.mulE_error _ _ (by rw [hqr]; exact hc)]
  rfl

theorem ffn_forwardSerial_ok (F : FeedForwardNetwork) (hF : F.WF) (X : Matrix)
    (hc : X.cols = F.config.embed_dim) :
    ∃ Y, F.forwardSerial X = Except.ok Y ∧
      Y.rows = X.rows ∧ Y.cols = F.config.embed_dim := by
  obtain ⟨⟨h1r, h1c⟩, _, ⟨h2r, h2c⟩, _⟩ := hF
  unfold FeedForwardNetwork.forwardSerial
  rw [Matrix.mulE_ok _ _ (by rw [hc, h1r]), bindE_ok]
  simp only [Matrix.mulE_ok _ _
    (show (relu (addRowBias (X.mul F.W1) F.b1)).cols = F.W2.rows by simp [h1c, h2r]),
    bindE_ok]
  exact ⟨_, rfl, rfl, by simp [h2c]⟩

theorem ffn_forwardSerial_error (F : FeedForwardNetwork) (hF : F.WF) (X : Matrix)
    (hc : X.cols ≠ F.config.embed_dim) :
    F.forwardSerial X = Except.error Err.matMulDims := by
  obtain ⟨⟨h1r, _⟩, _, _, _⟩ := hF
  unfold FeedForwardNetwork.forwardSerial
  rw [Matrix.mulE_error _ _ (by rw [h1r]; exact hc)]
  rfl

theorem layer_forwardSerial_ok (E Sq : ℚ → ℚ) (cfg : TransformerConfig)
    (L : TransformerEncoderLayer) (hL : L.WF cfg) (X : Matrix)
    (hr : X.rows = cfg.seq_length) (hc : X.cols = cfg.embed_dim) :
    ∃ Y, L.forwardSerial E Sq X = Except.ok Y ∧
      Y.rows = cfg.seq_length ∧ Y.cols = cfg.embed_dim := by
  obtain ⟨hcfg, hacfg, hAWF, hfcfg, hFWF⟩ := hL
  obtain ⟨a, ha, har, hac⟩ :=
    mha_forwardSerial_ok E Sq L.attention hAWF X (by rw [hc, hacfg])
  unfold TransformerEncoderLayer.forwardSerial
  rw [ha, bindE_ok,
    Matrix.addE_ok _ _ (by rw [hr, har, hacfg]) (by rw [hc, hac, hacfg]), bindE_ok]
  obtain ⟨f, hf, hfr, hfc⟩ := ffn_forwardSerial_ok L.ffn hFWF
    (L.norm1.forwardSerial Sq (X.add a)) (by simp [hc, hfcfg])
  simp only [hf, bindE_ok,
    Matrix.addE_ok _ _ hfr.symm (by simp [hfc, hfcfg, hc]), bindE_ok]
  exact ⟨_, rfl, by simp [hr], by simp [hc]⟩

theorem encoder_layers_foldlM_ok (E Sq : ℚ → ℚ) (cfg : TransformerConfig)
    (ls : List TransformerEncoderLayer) (hls : ∀ L ∈ ls, L.WF cfg)
    (X : Matrix) (hr : X.rows = cfg.seq_length) (hc : X.cols = cfg.embed_dim) :
    ∃ Y, ls.foldlM (fun current L => L.forwardSerial E Sq current) X = Except.ok Y ∧
      Y.rows = cfg.seq_length ∧ Y.cols = cfg.embed_dim := by
  induction ls generalizing X with
  | nil => exact ⟨X, rfl, hr, hc⟩
  | cons L t ih =>
      obtain ⟨Y1, h1, h1r, h1c⟩ :=
        layer_forwardSerial_ok E Sq cfg L (hls L (by simp)) X hr hc
      obtain ⟨Y, h2, h2r, h2c⟩ := ih (fun L2 hL2 => hls L2 (by simp [hL2])) Y1 h1r h1c
      refine ⟨Y, ?_, h2r, h2c⟩
      rw [List.foldlM_cons, h1, bindE_ok, h2]

theorem encoder_forwardSerial_ok (E Sq : ℚ → ℚ) (cfg : TransformerConfig)
    (T : TransformerEncoder) (hcfg : T.config = cfg) (hls : ∀ L ∈ T.layers, L.WF cfg)
    (X : Matrix) (hr : X.rows = cfg.seq_length) (hc : X.cols = cfg.embed_dim) :
    ∃ Y, T.forwardSerial E Sq X = Except.ok Y ∧
      Y.rows = cfg.seq_length ∧ Y.cols = cfg.embed_dim := by
  obtain ⟨Y, hY, hYr, hYc⟩ := encoder_layers_foldlM_ok E Sq cfg T.layers hls X hr hc
  refine ⟨Y, ?_, hYr, hYc⟩
  unfold TransformerEncoder.forwardSerial
  rw [if_neg (by rw [hcfg]; omega), hY]

theorem mapM_ok_exists {α β : Type} (f : α → Except Err β) (l : List α)
    (h : ∀ x ∈ l, ∃ y, f x = Except.ok y) : ∃ ys, l.mapM f = Except.ok ys := by
  induction l with
  | nil => exact ⟨[], rfl⟩
  | cons a t ih =>
      obtain ⟨y, hy⟩ := h a (by simp)
      obtain ⟨ys, hys⟩ := ih (fun x hx => h x (by simp [hx]))
      exact ⟨y :: ys, by rw [List.mapM_cons, hy, bindE_ok, hys]; rfl⟩

/-! Concrete instantiation data: a tiny configuration (one layer, one head,
two embedding features, one sequence position) with all weight streams
constantly 1, its encoder value, and simple function parameters. -/

/-- Tiny concrete configuration. -/
def exCfg : TransformerConfig :=
  { seq_length := 1, embed_dim := 2, num_heads := 1, ff_dim := 1, num_layers := 1,
    epsilon := 1 / 1000000 }

/-- Constant weight stream. -/
def exw : ℕ → ℕ → ℚ := fun _ _ => 1

/-- Weight bundle with every stream constantly 1. -/
def exWeights : LayerWeights := ⟨exw, exw, exw, exw, exw, exw, exw, exw⟩

/-- The attention state the constructor builds from `exCfg` and `exw`. -/
def exAttention : MultiHeadAttention :=
  ⟨exCfg, 2, ⟨2, 2, exw⟩, ⟨2, 2, exw⟩, ⟨2, 2, exw⟩, ⟨2, 2, exw⟩⟩

/-- The feed-forward state the constructor builds from `exCfg` and `exw`. -/
def exFFN : FeedForwardNetwork :=
  ⟨exCfg, ⟨2, 1, exw⟩, ⟨1, 1, exw⟩, ⟨1, 2, exw⟩, ⟨1, 2, exw⟩⟩

/-- The layer norm built from `exCfg`. -/
def exNorm : LayerNorm := mkLayerNorm exCfg

/-- The encoder layer built from `exCfg` and `exWeights`. -/
def exLayer : TransformerEncoderLayer := ⟨exCfg, exAttention, exFFN, exNorm, exNorm⟩

/-- The one-layer encoder built from `exCfg` and `exWeights`. -/
def exEncoder : TransformerEncoder := ⟨exCfg, [exLayer]⟩

/-- Constant-one stand-in for `exp` (positive everywhere, as `exp` is). -/
def exE : ℚ → ℚ := fun _ => 1

/-- Constant-one stand-in for `sqrt`. -/
def exSq : ℚ → ℚ := fun _ => 1

/-- A conforming 1-by-2 input for `exCfg`. -/
def exInput : Matrix := Matrix.const 1 2 0

/-! Claim theorems. -/

/-- C1: on one encoder instance (identical weights for both paths), for every
configuration and every input of shape `(seq_length, embed_dim)`, the serial
and the parallel forward path both succeed and return the same output
matrix, so the maximal entrywise deviation is 0 and the benchmark
equivalence check at tolerance 1e-4 passes. -/
theorem serial_parallel_equivalence (E Sq : ℚ → ℚ) (cfg : TransformerConfig)
    (Ws : ℕ → LayerWeights) (T : TransformerEncoder)
    (hT : mkTransformerEncoder cfg Ws = Except.ok T)
    (X : Matrix) (hr : X.rows = cfg.seq_length) (hc : X.cols = cfg.embed_dim) :
    ∃ Y, T.forwardSerial E Sq X = Except.ok Y ∧
      T.forwardParallel E Sq X = Except.ok Y ∧
      verifyNumericalCorrectness Y Y (1 / 10000) = true := by
  obtain ⟨hcfg, hls⟩ := mkTransformerEncoder_ok_elim cfg Ws T hT
  obtain ⟨Y, hY, _, _⟩ := encoder_forwardSerial_ok E Sq cfg T hcfg hls X hr hc
  exact ⟨Y, hY, by rw [encoder_forwardParallel_eq_forwardSerial, hY],
    verify_self Y _ (by norm_num)⟩

theorem serial_parallel_equivalence_witness :
    mkTransformerEncoder exCfg (fun _ => exWeights) = Except.ok exEncoder ∧
    exInput.rows = exCfg.seq_length ∧ exInput.cols = exCfg.embed_dim ∧
    ∃ Y, exEncoder.forwardSerial exE exSq exInput = Except.ok Y ∧
      exEncoder.forwardParallel exE exSq exInput = Except.ok Y ∧
      verifyNumericalCorrectness Y Y (1 / 10000) = true :=
  ⟨rfl, rfl, rfl,
    serial_parallel_equivalence exE exSq exCfg (fun _ => exWeights) exEncoder rfl
      exInput rfl rfl⟩

/-- C2: `TransformerEncoder::forward` (either path) throws the input-shape
error exactly when the input shape differs from
`(seq_length, embed_dim)`; on a conforming input it returns a matrix of the
input shape, which is the configured shape. -/
theorem forward_shape_check (E Sq : ℚ → ℚ) (cfg : TransformerConfig)
    (Ws : ℕ → LayerWeights) (T : TransformerEncoder)
    (hT : mkTransformerEncoder cfg Ws = Except.ok T) (X : Matrix) (use_parallel : Bool) :
    (¬(X.rows = cfg.seq_length ∧ X.cols = cfg.embed_dim) →
      T.forward E Sq X use_parallel = Except.error Err.inputDims) ∧
    (X.rows = cfg.seq_length ∧ X.cols = cfg.embed_dim →
      ∃ Y, T.forward E Sq X use_parallel = Except.ok Y ∧
        Y.rows = X.rows ∧ Y.cols = X.cols) := by
  obtain ⟨hcfg, hls⟩ := mkTransformerEncoder_ok_elim cfg Ws T hT
  constructor
  · intro hmis
    have hbad : X.rows ≠ T.config.seq_length ∨ X.cols ≠ T.config.embed_dim := by
      rw [hcfg]; tauto
    have hs : T.forwardSerial E Sq X = Except.error Err.inputDims := by
      unfold TransformerEncoder.forwardSerial
      rw [if_pos hbad]
    have hp : T.forwardParallel E Sq X = Except.error Err.inputDims := by
      rw [encoder_forwardParallel_eq_forwardSerial]; exact hs
    unfold TransformerEncoder.forward
    cases use_parallel
    · simpa using hs
    · simpa using hp
  · rintro ⟨hr, hc⟩
    obtain ⟨Y, hY, hYr, hYc⟩ := encoder_forwardSerial_ok E Sq cfg T hcfg hls X hr hc
    refine ⟨Y, ?_, by rw [hYr, hr], by rw [hYc, hc]⟩
    unfold TransformerEncoder.forward
    cases use_parallel
    · simpa using hY
    · simpa [encoder_forwardParallel_eq_forwardSerial] using hY

theorem forward_shape_check_witness :
    mkTransformerEncoder exCfg (fun _ => exWeights) = Except.ok exEncoder ∧
    ((¬((Matrix.const 3 2 0).rows = exCfg.seq_length ∧
          (Matrix.const 3 2 0).cols = exCfg.embed_dim) →
        exEncoder.forward exE exSq (Matrix.const 3 2 0) false
          = Except.error Err.inputDims) ∧
      ((Matrix.const 3 2 0).rows = exCfg.seq_length ∧
          (Matrix.const 3 2 0).cols = exCfg.embed_dim →
        ∃ Y, exEncoder.forward exE exSq (Matrix.const 3 2 0) false = Except.ok Y ∧
          Y.rows = (Matrix.const 3 2 0).rows ∧ Y.cols = (Matrix.const 3 2 0).cols)) :=
  ⟨rfl, forward_shape_check exE exSq exCfg (fun _ => exWeights) exEncoder rfl
    (Matrix.const 3 2 0) false⟩

/-- C3: for compatible shapes, `multiply_blocked` returns exactly the naive
`operator*` product (so the relative 1e-5 tolerance holds trivially), and
when every dimension is below `BLOCK = 64` it returns exactly the naive
result through its fallback branch. -/
theorem multiply_blocked_matches_naive (A B : Matrix) (_h : A.cols = B.rows) :
    A.mulBlocked B = A.mul B ∧
    Matrix.maxAbsDiff (A.mul B) (A.mulBlocked B)
      ≤ (1 / 100000) * (A.mul B).maxAbsEntry ∧
    (A.rows < BLOCK ∧ A.cols < BLOCK ∧ B.cols < BLOCK → A.mulBlocked B = A.mul B) := by
  refine ⟨Matrix.mulBlocked_eq_mul A B, ?_, fun _ => Matrix.mulBlocked_eq_mul A B⟩
  rw [Matrix.mulBlocked_eq_mul, maxAbsDiff_self_eq_zero]
  exact mul_nonneg (by norm_num) (maxAbsEntry_nonneg (A.mul B))

theorem multiply_blocked_matches_naive_witness :
    (Matrix.const 1 1 1).cols = (Matrix.const 1 1 1).rows ∧
    ((Matrix.const 1 1 1).mulBlocked (Matrix.const 1 1 1)
        = (Matrix.const 1 1 1).mul (Matrix.const 1 1 1) ∧
      Matrix.maxAbsDiff ((Matrix.const 1 1 1).mul (Matrix.const 1 1 1))
          ((Matrix.const 1 1 1).mulBlocked (Matrix.const 1 1 1))
        ≤ (1 / 100000) * ((Matrix.const 1 1 1).mul (Matrix.const 1 1 1)).maxAbsEntry ∧
      ((Matrix.const 1 1 1).rows < BLOCK ∧ (Matrix.const 1 1 1).cols < BLOCK ∧
          (Matrix.const 1 1 1).cols < BLOCK →
        (Matrix.const 1 1 1).mulBlocked (Matrix.const 1 1 1)
          = (Matrix.const 1 1 1).mul (Matrix.const 1 1 1))) :=
  ⟨rfl, multiply_blocked_matches_naive (Matrix.const 1 1 1) (Matrix.const 1 1 1) rfl⟩

theorem getD_map_range {α : Type} (f : ℕ → α) (n i : ℕ) (dflt : α) (hi : i < n) :
    ((List.range n).map f).getD i dflt = f i := by
  rw [List.getD_eq_getElem?_getD, List.getElem?_map, List.getElem?_range hi]
  rfl

/-- C4: splitting a matrix of shape `(seq_length, embed_dim)` with
`embed_dim = num_heads * head_dim` into heads and concatenating the heads
back reproduces the matrix bit-exactly (same shape, same value in every
cell). -/
theorem split_concat_roundtrip (cfg : TransformerConfig) (d : ℕ) (M : Matrix)
    (hr : M.rows = cfg.seq_length) (hc : M.cols = cfg.embed_dim)
    (hd : cfg.embed_dim = cfg.num_heads * d) :
    (concatHeads cfg d (splitHeads cfg d M)).EntriesEq M := by
  refine ⟨by simp [hr], by simp [hc], ?_⟩
  intro i hi j hj
  have hj2 : j < cfg.num_heads * d := by
    have : j < cfg.embed_dim := by simpa using hj
    omega
  have hd0 : d ≠ 0 := by rintro rfl; omega
  have hdiv : j / d < cfg.num_heads := by
    rcases Nat.lt_or_ge (j / d) cfg.num_heads with hlt | hge
    · exact hlt
    · exfalso
      have hmul : cfg.num_heads * d ≤ j / d * d := Nat.mul_le_mul_right d hge
      have hfloor : j / d * d ≤ j := Nat.div_mul_le_self j d
      exact absurd hj2 (not_lt.mpr (le_trans hmul hfloor))
  show (if d ≠ 0 ∧ j / d < cfg.num_heads then _ else 0) = M.entry i j
  rw [if_pos ⟨hd0, hdiv⟩]
  unfold splitHeads
  rw [getD_map_range _ _ _ _ hdiv]
  show M.entry i (j / d * d + j % d) = M.entry i j
  congr 1
  rw [mul_comm]
  exact Nat.div_add_mod j d

theorem split_concat_roundtrip_witness :
    exInput.rows = exCfg.seq_length ∧ exInput.cols = exCfg.embed_dim ∧
    exCfg.embed_dim = exCfg.num_heads * 2 ∧
    (concatHeads exCfg 2 (splitHeads exCfg 2 exInput)).EntriesEq exInput :=
  ⟨rfl, rfl, rfl, split_concat_roundtrip exCfg 2 exInput rfl rfl rfl⟩

/-- C5: on any matrix with at least one column, row-wise softmax subtracts
the true row maximum (the running maximum is an upper bound attained at some
column), produces the normalised exponentials, so every row sums to exactly
1 (in particular within 1e-6), every entry lies in [0, 1], and an all-equal
row yields `1 / cols` in every column; `E` is any positive function, as
`std::exp` is. -/
theorem softmax_row_properties (E : ℚ → ℚ) (hE : ∀ x, 0 < E x) (M : Matrix)
    (hc : 1 ≤ M.cols) (i : ℕ) (_hi : i < M.rows) :
    (∀ j < M.cols, M.entry i j ≤ rowMax M i) ∧
    (∃ j < M.cols, rowMax M i = M.entry i j) ∧
    (∀ j < M.cols, (softmax E M).entry i j
      = E (M.entry i j - rowMax M i) /
          ∑ k ∈ Finset.range M.cols, E (M.entry i k - rowMax M i)) ∧
    (∑ j ∈ Finset.range M.cols, (softmax E M).entry i j = 1) ∧
    (∀ j < M.cols, 0 ≤ (softmax E M).entry i j ∧ (softmax E M).entry i j ≤ 1) ∧
    ((∀ j < M.cols, M.entry i j = M.entry i 0) →
      ∀ j < M.cols, (softmax E M).entry i j = 1 / (M.cols : ℚ)) := by
  have hS : 0 < ∑ k ∈ Finset.range M.cols, E (M.entry i k - rowMax M i) :=
    Finset.sum_pos (fun k _ => hE _) (Finset.nonempty_range_iff.mpr (by omega))
  have hub : ∀ j < M.cols, M.entry i j ≤ rowMax M i := by
    intro j hj
    unfold rowMax
    rcases Nat.eq_zero_or_pos j with rfl | hjpos
    · exact foldl_max_ge_init _ _ _
    · have hmem : j - 1 ∈ List.range (M.cols - 1) := List.mem_range.mpr (by omega)
      have hle := foldl_max_mem_le (fun x => M.entry i (x + 1)) (List.range (M.cols - 1))
        (M.entry i 0) (j - 1) hmem
      simpa [Nat.sub_add_cancel hjpos] using hle
  have hattained : ∃ j < M.cols, rowMax M i = M.entry i j := by
    unfold rowMax
    rcases foldl_max_cases (fun x => M.entry i (x + 1)) (List.range (M.cols - 1))
        (M.entry i 0) with hcase | ⟨x, hx, hcase⟩
    · exact ⟨0, by omega, hcase⟩
    · exact ⟨x + 1, by have := List.mem_range.mp hx; omega, hcase⟩
  refine ⟨hub, hattained, fun j _ => rfl, ?_, ?_, ?_⟩
  · show (∑ j ∈ Finset.range M.cols,
      E (M.entry i j - rowMax M i) /
        ∑ k ∈ Finset.range M.cols, E (M.entry i k - rowMax M i)) = 1
    rw [← Finset.sum_div, div_self hS.ne']
  · intro j hj
    constructor
    · exact div_nonneg (hE _).le hS.le
    · exact (div_le_one hS).mpr (Finset.single_le_sum
        (f := fun k => E (M.entry i k - rowMax M i)) (fun k _ => (hE _).le)
        (Finset.mem_range.mpr hj))
  · intro hAll j hj
    have hm : rowMax M i = M.entry i 0 := by
      unfold rowMax
      rcases foldl_max_cases (fun x => M.entry i (x + 1)) (List.range (M.cols - 1))
          (M.entry i 0) with hcase | ⟨x, hx, hcase⟩
      · exact hcase
      · rw [hcase]
        exact hAll (x + 1) (by have := List.mem_range.mp hx; omega)
    have hS2 : (∑ k ∈ Finset.range M.cols, E (M.entry i k - rowMax M i))
        = (M.cols : ℚ) * E 0 := by
      rw [Finset.sum_congr rfl
        (fun k hk => by rw [hAll k (Finset.mem_range.mp hk), hm, sub_self])]
      simp [mul_comm]
    show E (M.entry i j - rowMax M i) /
        (∑ k ∈ Finset.range M.cols, E (M.entry i k - rowMax M i)) = 1 / (M.cols : ℚ)
    rw [hS2, hAll j hj, hm, sub_self, mul_comm ((M.cols : ℚ)) (E 0), ← div_div,
      div_self (hE 0).ne']

theorem softmax_row_properties_witness :
    (∀ x, 0 < exE x) ∧ 1 ≤ exInput.cols ∧ 0 < exInput.rows ∧
    ((∀ j < exInput.cols, exInput.entry 0 j ≤ rowMax exInput 0) ∧
      (∃ j < exInput.cols, rowMax exInput 0 = exInput.entry 0 j) ∧
      (∀ j < exInput.cols, (softmax exE exInput).entry 0 j
        = exE (exInput.entry 0 j - rowMax exInput 0) /
            ∑ k ∈ Finset.range exInput.cols, exE (exInput.entry 0 k - rowMax exInput 0)) ∧
      (∑ j ∈ Finset.range exInput.cols, (softmax exE exInput).entry 0 j = 1) ∧
      (∀ j < exInput.cols, 0 ≤ (softmax exE exInput).entry 0 j ∧
        (softmax exE exInput).entry 0 j ≤ 1) ∧
      ((∀ j < exInput.cols, exInput.entry 0 j = exInput.entry 0 0) →
        ∀ j < exInput.cols, (softmax exE exInput).entry 0 j = 1 / (exInput.cols : ℚ))) :=
  ⟨fun _ => by norm_num [exE], by decide, by decide,
    softmax_row_properties exE (fun _ => by norm_num [exE]) exInput (by decide) 0
      (by decide)⟩

/-- C6 data: a config with a tiny positive epsilon chosen so that
`1 + epsilon` is the square of the rational 100001/100000, the two-entry
input row (0, 2) with variance exactly 1, and the constant function
returning that exact square root. -/
def cfgC6 : TransformerConfig :=
  { seq_length := 1, embed_dim := 2, num_heads := 1, ff_dim := 1, num_layers := 1,
    epsilon := 200001 / 10000000000 }

/-- Row (0, 2): mean 1, biased variance 1. -/
def matC6 : Matrix := ⟨1, 2, fun _ j => if j = 0 then 0 else 2⟩

/-- Constant exact square root of `1 + cfgC6.epsilon`. -/
def sqC6 : ℚ → ℚ := fun _ => 100001 / 100000

/-- C6 counterexample: on the constant 1-by-2 input filled with 1/4 the
input row variance is 0, the normalised row is all zeros (each numerator
`x - mean` is 0), and the output row variance 0 is not within 1e-4 of 1.
The square-root parameter is exact at the one point it is used:
sqrt(0 + 1e-6) = 1/1000. -/
theorem layernorm_unit_variance_counterexample :
    |rowVar ((mkLayerNorm exCfg).forwardSerial (fun _ => 1 / 1000)
        (Matrix.const 1 2 (1 / 4))) 0 - 1| > 1 / 10000 := by
  have h : rowVar ((mkLayerNorm exCfg).forwardSerial (fun _ => 1 / 1000)
      (Matrix.const 1 2 (1 / 4))) 0 = 0 := by
    norm_num [rowVar, rowMean, LayerNorm.forwardSerial, mkLayerNorm, Matrix.const,
      exCfg, Finset.sum_range_succ]
  rw [h]
  norm_num

/-- C6 (amended): with the constructed parameters gamma = 1, beta = 0, every
output row of `LayerNorm::forward_serial` has mean exactly 0 (in particular
within 1e-5 of 0); the output row variance is within 1e-4 of 1 provided the
input row variance dominates epsilon (`epsilon * 10000 ≤ variance + epsilon`
with a positive denominator) — a condition that fails for example on
constant rows.  `Sq` must act as an exact square root on the one value
`variance + epsilon` it is applied to. -/
theorem layernorm_row_normalization (Sq : ℚ → ℚ) (cfg : TransformerConfig)
    (X : Matrix) (hc : 1 ≤ X.cols) (i : ℕ) (_hi : i < X.rows) :
    rowMean ((mkLayerNorm cfg).forwardSerial Sq X) i = 0 ∧
    (Sq (rowVar X i + cfg.epsilon) * Sq (rowVar X i + cfg.epsilon)
          = rowVar X i + cfg.epsilon →
      0 ≤ cfg.epsilon → 0 < rowVar X i + cfg.epsilon →
      cfg.epsilon * 10000 ≤ rowVar X i + cfg.epsilon →
      |rowVar ((mkLayerNorm cfg).forwardSerial Sq X) i - 1| ≤ 1 / 10000) := by
  have hcQ : (X.cols : ℚ) ≠ 0 := Nat.cast_ne_zero.mpr (by omega)
  have hcols : ((mkLayerNorm cfg).forwardSerial Sq X).cols = X.cols := rfl
  have hentry : ∀ j, ((mkLayerNorm cfg).forwardSerial Sq X).entry i j
      = (X.entry i j - rowMean X i) / Sq (rowVar X i + cfg.epsilon) := by
    intro j
    show (Matrix.const 1 cfg.embed_dim 1).entry 0 j *
        ((X.entry i j - rowMean X i) / Sq (rowVar X i + cfg.epsilon)) +
      (Matrix.const 1 cfg.embed_dim 0).entry 0 j = _
    simp
  have hsum0 : ∑ j ∈ Finset.range X.cols, (X.entry i j - rowMean X i) = 0 := by
    rw [Finset.sum_sub_distrib, Finset.sum_const, Finset.card_range, nsmul_eq_mul]
    unfold rowMean
    rw [← mul_div_assoc, mul_div_cancel_left₀ _ hcQ]
    exact sub_self _
  have hmean : rowMean ((mkLayerNorm cfg).forwardSerial Sq X) i = 0 := by
    unfold rowMean
    rw [hcols, Finset.sum_congr rfl (fun j _ => hentry j), ← Finset.sum_div, hsum0,
      zero_div, zero_div]
  refine ⟨hmean, fun hsq heps hpos hbig => ?_⟩
  have rowVar_def : ∀ (N : Matrix) (r : ℕ), rowVar N r
      = (∑ j ∈ Finset.range N.cols,
          (N.entry r j - rowMean N r) * (N.entry r j - rowMean N r)) / N.cols :=
    fun N r => rfl
  have hvar : rowVar ((mkLayerNorm cfg).forwardSerial Sq X) i
      = rowVar X i / (rowVar X i + cfg.epsilon) := by
    rw [rowVar_def ((mkLayerNorm cfg).forwardSerial Sq X) i, hcols, hmean]
    rw [Finset.sum_congr rfl (fun j _ => by rw [hentry j, sub_zero])]
    rw [Finset.sum_congr rfl (fun j _ => div_mul_div_comm _ _ _ _)]
    rw [← Finset.sum_div, hsq, div_right_comm]
    rfl
  rw [hvar]
  have hle1 : rowVar X i / (rowVar X i + cfg.epsilon) ≤ 1 :=
    (div_le_one hpos).mpr (by linarith)
  rw [abs_sub_comm, abs_of_nonneg (by linarith)]
  have heq : 1 - rowVar X i / (rowVar X i + cfg.epsilon)
      = cfg.epsilon / (rowVar X i + cfg.epsilon) := by
    field_simp
  rw [heq, div_le_div_iff₀ hpos (by norm_num : (0 : ℚ) < 10000)]
  linarith

theorem layernorm_row_normalization_witness :
    1 ≤ matC6.cols ∧ 0 < matC6.rows ∧
    rowMean ((mkLayerNorm cfgC6).forwardSerial sqC6 matC6) 0 = 0 ∧
    |rowVar ((mkLayerNorm cfgC6).forwardSerial sqC6 matC6) 0 - 1| ≤ 1 / 10000 := by
  have hv : rowVar matC6 0 = 1 := by
    norm_num [rowVar, rowMean, matC6, Finset.sum_range_succ]
  refine ⟨by norm_num [matC6], by norm_num [matC6], ?_, ?_⟩
  · exact (layernorm_row_normalization sqC6 cfgC6 matC6 (by norm_num [matC6]) 0
      (by norm_num [matC6])).1
  · exact (layernorm_row_normalization sqC6 cfgC6 matC6 (by norm_num [matC6]) 0
      (by norm_num [matC6])).2
      (by rw [hv]; norm_num [sqC6, cfgC6]) (by norm_num [cfgC6])
      (by rw [hv]; norm_num [cfgC6]) (by rw [hv]; norm_num [cfgC6])

/-- C7: both the serial and the parallel path of the encoder layer compute
exactly the post-norm composition `a = Attention(X)`, `r1 = X + a`,
`n1 = LayerNorm1(r1)`, `f = FFN(n1)`, `r2 = n1 + f`, `Y = LayerNorm2(r2)`,
i.e. `Y = LN2( LN1(X + Att(X)) + FFN(LN1(X + Att(X))) )`, with
normalisation applied after each residual addition. -/
theorem encoder_layer_postnorm_order (E Sq : ℚ → ℚ) (L : TransformerEncoderLayer)
    (X : Matrix) :
    (L.forwardSerial E Sq X = do
        let a ← L.attention.forwardSerial E Sq X
        let r1 ← X.addE a
        let f ← L.ffn.forwardSerial (L.norm1.forwardSerial Sq r1)
        let r2 ← (L.norm1.forwardSerial Sq r1).addE f
        pure (L.norm2.forwardSerial Sq r2)) ∧
    (L.forwardParallel E Sq X = do
        let a ← L.attention.forwardSerial E Sq X
        let r1 ← X.addE a
        let f ← L.ffn.forwardSerial (L.norm1.forwardSerial Sq r1)
        let r2 ← (L.norm1.forwardSerial Sq r1).addE f
        pure (L.norm2.forwardSerial Sq r2)) := by
  constructor
  · rfl
  · rw [layer_forwardParallel_eq_forwardSerial]
    rfl

/-- C8 data: invalid divisibility (10 features over 3 heads), one layer. -/
def cfgC8 : TransformerConfig :=
  { seq_length := 128, embed_dim := 10, num_heads := 3, ff_dim := 2048,
    num_layers := 1, epsilon := 1 / 1000000 }

/-- C8 data: the same invalid divisibility but zero layers. -/
def cfgC8zero : TransformerConfig :=
  { seq_length := 128, embed_dim := 10, num_heads := 3, ff_dim := 2048,
    num_layers := 0, epsilon := 1 / 1000000 }

/-- C8 counterexample: with `embed_dim = 10`, `num_heads = 3` but
`num_layers = 0`, the encoder constructor builds no layer, so no
`MultiHeadAttention` constructor ever runs and encoder construction
succeeds instead of raising the divisibility error. -/
theorem encoder_no_config_error_with_zero_layers :
    mkTransformerEncoder cfgC8zero (fun _ => exWeights)
      = Except.ok { config := cfgC8zero, layers := [] } := rfl

/-- C8 (amended): with at least one head, `MultiHeadAttention` construction
raises the divisibility error exactly when `embed_dim % num_heads ≠ 0`
(and otherwise succeeds), and encoder construction propagates that error
exactly when there is at least one layer; with `num_layers = 0` the invalid
combination goes undetected.  An error return carries no constructed
state. -/
theorem config_divisibility_error (cfg : TransformerConfig) (Ws : ℕ → LayerWeights)
    (hH : cfg.num_heads ≠ 0) :
    (cfg.embed_dim % cfg.num_heads ≠ 0 →
      mkMultiHeadAttention cfg (Ws 0).wq (Ws 0).wk (Ws 0).wv (Ws 0).wo
          = Except.error Err.embedDivisibility ∧
      (cfg.num_layers ≠ 0 →
        mkTransformerEncoder cfg Ws = Except.error Err.embedDivisibility)) ∧
    (cfg.embed_dim % cfg.num_heads = 0 →
      (∃ A, mkMultiHeadAttention cfg (Ws 0).wq (Ws 0).wk (Ws 0).wv (Ws 0).wo
          = Except.ok A) ∧
      ∃ T, mkTransformerEncoder cfg Ws = Except.ok T) := by
  constructor
  · intro hnd
    have hmha : mkMultiHeadAttention cfg (Ws 0).wq (Ws 0).wk (Ws 0).wv (Ws 0).wo
        = Except.error Err.embedDivisibility := by
      unfold mkMultiHeadAttention
      rw [if_neg hH, if_pos hnd]
    have hlayer : mkTransformerEncoderLayer cfg (Ws 0)
        = Except.error Err.embedDivisibility := by
      unfold mkTransformerEncoderLayer
      rw [hmha]
      rfl
    refine ⟨hmha, fun hn => ?_⟩
    unfold mkTransformerEncoder
    rw [mapM_range_error _ _ _ hlayer hn]
    rfl
  · intro hdvd
    have hmha : ∀ i : ℕ, ∃ A,
        mkMultiHeadAttention cfg (Ws i).wq (Ws i).wk (Ws i).wv (Ws i).wo
          = Except.ok A := by
      intro i
      unfold mkMultiHeadAttention
      rw [if_neg hH, if_neg (by omega)]
      exact ⟨_, rfl⟩
    have hlayer : ∀ i : ℕ, ∃ L, mkTransformerEncoderLayer cfg (Ws i) = Except.ok L := by
      intro i
      obtain ⟨A, hA⟩ := hmha i
      exact ⟨_, by unfold mkTransformerEncoderLayer; rw [hA]; rfl⟩
    obtain ⟨ls, hls⟩ := mapM_ok_exists (fun i => mkTransformerEncoderLayer cfg (Ws i))
      (List.range cfg.num_layers) (fun i _ => hlayer i)
    refine ⟨hmha 0, ⟨cfg, ls⟩, ?_⟩
    unfold mkTransformerEncoder
    rw [hls]
    rfl

theorem config_divisibility_error_witness :
    cfgC8.num_heads ≠ 0 ∧
    ((cfgC8.embed_dim % cfgC8.num_heads ≠ 0 →
      mkMultiHeadAttention cfgC8 exWeights.wq exWeights.wk exWeights.wv exWeights.wo
          = Except.error Err.embedDivisibility ∧
      (cfgC8.num_layers ≠ 0 →
        mkTransformerEncoder cfgC8 (fun _ => exWeights)
          = Except.error Err.embedDivisibility)) ∧
    (cfgC8.embed_dim % cfgC8.num_heads = 0 →
      (∃ A, mkMultiHeadAttention cfgC8 exWeights.wq exWeights.wk exWeights.wv exWeights.wo
          = Except.ok A) ∧
      ∃ T, mkTransformerEncoder cfgC8 (fun _ => exWeights) = Except.ok T)) :=
  ⟨by decide, config_divisibility_error cfgC8 (fun _ => exWeights) (by decide)⟩

/-- C9: read-offset predicate for the `gamma_(0, j)` accesses performed by
`LayerNorm::forward_serial`: every read offset `0 * cols + j` for
`j < input.cols` lies inside the flat gamma buffer of
`gamma.rows * gamma.cols` floats. -/
def gammaReadsInBounds (L : LayerNorm) (input : Matrix) : Prop :=
  ∀ j < input.cols, 0 * L.gamma.cols + j < L.gamma.rows * L.gamma.cols

/-- C9: read-offset predicate for the `input(i, h * head_dim + j)` accesses
performed by `MultiHeadAttention::split_heads`: every read offset
`i * input.cols + (h * head_dim + j)` lies inside the flat input buffer of
`input.rows * input.cols` floats. -/
def splitHeadsReadsInBounds (cfg : TransformerConfig) (head_dim : ℕ)
    (input : Matrix) : Prop :=
  ∀ h < cfg.num_heads, ∀ i < cfg.seq_length, ∀ j < head_dim,
    i * input.cols + (h * head_dim + j) < input.rows * input.cols

/-- C9 counterexample to "no sublayer raises": on a 1-by-3 input with
configured `embed_dim = 2`, the first multiplication inside
`FeedForwardNetwork::forward_serial` throws the matrix-dimension shape
error. -/
theorem ffn_raises_on_column_mismatch :
    (mkFeedForwardNetwork exCfg exw exw exw exw).forwardSerial ⟨1, 3, fun _ _ => 0⟩
      = Except.error Err.matMulDims := rfl

/-- C9 (amended): the sublayers perform no validation of their own against
`(seq_length, embed_dim)`: a wrong row count is never detected (attention
and the FFN still succeed), while a wrong column count surfaces only as the
generic matrix-multiplication dimension error from inside attention and the
FFN, never as the encoder input check; under the precondition that the
input has exactly the configured shape, the gamma reads of LayerNorm and
the split-head reads of attention stay inside their buffers, and with too
few input rows the split-head reads escape the input buffer. -/
theorem sublayer_shape_validation (E Sq : ℚ → ℚ) (cfg : TransformerConfig)
    (W : LayerWeights) (A : MultiHeadAttention)
    (hA : mkMultiHeadAttention cfg W.wq W.wk W.wv W.wo = Except.ok A) (X : Matrix) :
    (X.cols = cfg.embed_dim →
      (∃ Y, A.forwardSerial E Sq X = Except.ok Y) ∧
      ∃ Y, (mkFeedForwardNetwork cfg W.w1 W.bb1 W.w2 W.bb2).forwardSerial X
        = Except.ok Y) ∧
    (X.cols ≠ cfg.embed_dim →
      A.forwardSerial E Sq X = Except.error Err.matMulDims ∧
      (mkFeedForwardNetwork cfg W.w1 W.bb1 W.w2 W.bb2).forwardSerial X
        = Except.error Err.matMulDims) ∧
    (X.rows = cfg.seq_length → X.cols = cfg.embed_dim →
      gammaReadsInBounds (mkLayerNorm cfg) X ∧
      splitHeadsReadsInBounds cfg A.head_dim X) ∧
    (X.rows < cfg.seq_length → X.cols = cfg.embed_dim → 0 < cfg.num_heads →
      0 < A.head_dim → ¬ splitHeadsReadsInBounds cfg A.head_dim X) := by
  obtain ⟨hcfg, hd, hWF, hH, hdvd⟩ := mkMultiHeadAttention_ok_elim cfg _ _ _ _ A hA
  refine ⟨fun hc => ?_, fun hc => ?_, fun hr hc => ?_, fun hr hc hH1 hd1 => ?_⟩
  · constructor
    · obtain ⟨Y, hY, _, _⟩ := mha_forwardSerial_ok E Sq A hWF X (by rw [hc, hcfg])
      exact ⟨Y, hY⟩
    · obtain ⟨Y, hY, _, _⟩ := ffn_forwardSerial_ok _ (mkFeedForwardNetwork_WF cfg _ _ _ _).1
        X (by rw [hc]; rfl)
      exact ⟨Y, hY⟩
  · exact ⟨mha_forwardSerial_error E Sq A hWF X (by rw [hcfg]; exact hc),
      ffn_forwardSerial_error _ (mkFeedForwardNetwork_WF cfg _ _ _ _).1 X
        (by intro hx; exact hc (by rw [hx]; rfl))⟩
  · constructor
    · intro j hj
      show 0 * cfg.embed_dim + j < 1 * cfg.embed_dim
      rw [hc] at hj
      omega
    · intro h hh i hi j hj
      have hsub : cfg.num_heads * A.head_dim ≤ cfg.embed_dim := by
        rw [hd, mul_comm]
        exact Nat.div_mul_le_self cfg.embed_dim cfg.num_heads
      have hcol : h * A.head_dim + j < X.cols := by
        have h1 : h * A.head_dim + j < (h + 1) * A.head_dim := by
          rw [Nat.succ_mul]; omega
        have h2 : (h + 1) * A.head_dim ≤ cfg.num_heads * A.head_dim :=
          Nat.mul_le_mul_right _ (by omega)
        rw [hc]
        calc h * A.head_dim + j < (h + 1) * A.head_dim := h1
          _ ≤ cfg.num_heads * A.head_dim := h2
          _ ≤ cfg.embed_dim := hsub
      have hrow : i + 1 ≤ X.rows := by omega
      calc i * X.cols + (h * A.head_dim + j) < i * X.cols + X.cols := by omega
        _ = (i + 1) * X.cols := by ring
        _ ≤ X.rows * X.cols := Nat.mul_le_mul_right _ hrow
  · intro hin
    have hbad := hin 0 hH1 X.rows hr 0 hd1
    simp only [Nat.zero_mul, Nat.add_zero] at hbad
    omega

theorem sublayer_shape_validation_witness :
    mkMultiHeadAttention exCfg exWeights.wq exWeights.wk exWeights.wv exWeights.wo
        = Except.ok exAttention ∧
    ((exInput.cols = exCfg.embed_dim →
      (∃ Y, exAttention.forwardSerial exE exSq exInput = Except.ok Y) ∧
      ∃ Y, (mkFeedForwardNetwork exCfg exWeights.w1 exWeights.bb1 exWeights.w2
          exWeights.bb2).forwardSerial exInput = Except.ok Y) ∧
    (exInput.cols ≠ exCfg.embed_dim →
      exAttention.forwardSerial exE exSq exInput = Except.error Err.matMulDims ∧
      (mkFeedForwardNetwork exCfg exWeights.w1 exWeights.bb1 exWeights.w2
          exWeights.bb2).forwardSerial exInput = Except.error Err.matMulDims) ∧
    (exInput.rows = exCfg.seq_length → exInput.cols = exCfg.embed_dim →
      gammaReadsInBounds (mkLayerNorm exCfg) exInput ∧
      splitHeadsReadsInBounds exCfg exAttention.head_dim exInput) ∧
    (exInput.rows < exCfg.seq_length → exInput.cols = exCfg.embed_dim →
      0 < exCfg.num_heads → 0 < exAttention.head_dim →
      ¬ splitHeadsReadsInBounds exCfg exAttention.head_dim exInput)) :=
  ⟨rfl, sublayer_shape_validation exE exSq exCfg exWeights exAttention rfl exInput⟩

/-- C10: with `num_heads = 0` the `MultiHeadAttention` constructor reaches
the `size_t` division `embed_dim / num_heads` in its member initializer
with a zero divisor before the divisibility validation in the constructor
body can run, so construction aborts with the division trap and never
raises the divisibility configuration error; through the layer constructor
the same abort reaches encoder construction whenever at least one layer is
built. -/
theorem construction_divides_by_zero_heads (cfg : TransformerConfig)
    (Ws : ℕ → LayerWeights) (h : cfg.num_heads = 0) :
    mkMultiHeadAttention cfg (Ws 0).wq (Ws 0).wk (Ws 0).wv (Ws 0).wo
        = Except.error Err.divByZero ∧
    (cfg.num_layers ≠ 0 →
      mkTransformerEncoder cfg Ws = Except.error Err.divByZero) := by
  have hmha : mkMultiHeadAttention cfg (Ws 0).wq (Ws 0).wk (Ws 0).wv (Ws 0).wo
      = Except.error Err.divByZero := by
    unfold mkMultiHeadAttention
    rw [if_pos h]
  have hlayer : mkTransformerEncoderLayer cfg (Ws 0) = Except.error Err.divByZero := by
    unfold mkTransformerEncoderLayer
    rw [hmha]
    rfl
  refine ⟨hmha, fun hn => ?_⟩
  unfold mkTransformerEncoder
  rw [mapM_range_error _ _ _ hlayer hn]
  rfl

/-- C10 data: a configuration with zero attention heads (all other fields
at their defaults). -/
def cfgC10 : TransformerConfig := { num_heads := 0 }

theorem construction_divides_by_zero_heads_witness :
    cfgC10.num_heads = 0 ∧
    (mkMultiHeadAttention cfgC10 exWeights.wq exWeights.wk exWeights.wv exWeights.wo
        = Except.error Err.divByZero ∧
    (cfgC10.num_layers ≠ 0 →
      mkTransformerEncoder cfgC10 (fun _ => exWeights) = Except.error Err.divByZero)) :=
  ⟨rfl, construction_divides_by_zero_heads cfgC10 (fun _ => exWeights) rfl⟩

end MicroTransformer
